import Mathlib

/-!
Verification of the partition-pooling library (files algorithm.py and layer.py).

The library turns a ragged list of index groups into a rectangular index
table plus a per-slot correction-weight table
(PartitionPooling.adjustPartitionLength in layer.py), and provides three
pooling reductions over a (batch, nodes, features) tensor
(maxPartitionPooling, sumPartitionPooling, averagePartitionPooling in
algorithm.py).  Arithmetic is modelled exactly over the rationals; tensors
are rank-3 arrays given by explicit dimensions and a total data function;
operations that raise in the original code (numpy ValueError during
normalization, tensorflow gather range errors, broadcast shape errors)
are modelled as returning none.
-/

namespace GraphPooling

/-- A rank-3 tensor of shape (dim0, dim1, dim2): for inputs the axes are
(batch, nodes, features); for pooled outputs they are (batch, P, features).
Entries outside the declared shape are irrelevant to every statement. -/
@[ext]
structure Tensor3 where
  dim0 : ℕ
  dim1 : ℕ
  dim2 : ℕ
  data : ℕ → ℕ → ℕ → ℚ

/-- Pointwise addition of two tensors (dimensions taken from the first). -/
def Tensor3.add (x y : Tensor3) : Tensor3 :=
  ⟨x.dim0, x.dim1, x.dim2, fun b n f => x.data b n f + y.data b n f⟩

/-- Pointwise scalar multiplication of a tensor. -/
def Tensor3.smul (c : ℚ) (x : Tensor3) : Tensor3 :=
  ⟨x.dim0, x.dim1, x.dim2, fun b n f => c * x.data b n f⟩

/-- maxLen = max(l) over the sublist lengths, as in layer.py line 42
(max of the empty list raises in Python; callers guard part nonempty). -/
def maxLenOf (part : List (List ℤ)) : ℕ :=
  (part.map List.length).foldr max 0

/-- One iteration of the loop in adjustPartitionLength (layer.py lines 48-51):
for group e, lenDiff = maxLen - len(e);
the index row is np.pad(e, (0, lenDiff), mode edge), i.e. e followed by
lenDiff copies of its last element;
the weight row starts as maxLen ones and the slice [-(lenDiff+1):] is set
to 1/(lenDiff+1).  Numpy clamps the slice to the row, hence the lengths
maxLen - (lenDiff+1) and maxLen - (maxLen - (lenDiff+1)) below, which for a
nonempty group are len(e)-1 and lenDiff+1. -/
def adjustRow (maxLen : ℕ) (e : List ℤ) : List ℤ × List ℚ :=
  let lenDiff := maxLen - e.length
  (e ++ List.replicate lenDiff (e.getLastD 0),
   List.replicate (maxLen - (lenDiff + 1)) (1 : ℚ) ++
     List.replicate (maxLen - (maxLen - (lenDiff + 1))) (((lenDiff : ℚ) + 1)⁻¹))

/-- PartitionPooling.adjustPartitionLength (layer.py lines 27-53).
Fallible parts of the original code are modelled as none:
max([]) raises ValueError when part is empty (line 42), and
np.pad(e, (0, lenDiff), mode edge) raises ValueError when e is empty and
lenDiff > 0 (numpy refuses to extend an empty axis with the edge mode;
a zero-width pad of an empty group succeeds, which happens exactly when
maxLen = 0).  No index validation of any kind is performed. -/
def adjustPartitionLength (part : List (List ℤ)) :
    Option (List (List ℤ) × List (List ℚ)) :=
  if part.isEmpty then
    none
  else if part.any (fun e => e.isEmpty && decide (0 < maxLenOf part)) then
    none
  else
    some (part.map (fun e => (adjustRow (maxLenOf part) e).1),
          part.map (fun e => (adjustRow (maxLenOf part) e).2))

/-- partitionSizes = np.sum(countWeights, axis = -1)
(AveragePartitionPooling, layer.py line 153). -/
def partitionSizes (countWeights : List (List ℚ)) : List ℚ :=
  countWeights.map List.sum

/-- Bounds check performed by tf.gather along axis 1 of a tensor whose node
axis has length nodes: every index must lie in [0, nodes), otherwise the
gather raises an out-of-range error. -/
def gatherOK (nodes : ℕ) (partitions : List (List ℤ)) : Bool :=
  partitions.all (fun row => row.all (fun idx => decide (0 ≤ idx ∧ idx < (nodes : ℤ))))

/-- tf.constant(partitions) requires a rectangular list of lists. -/
def isRect (partitions : List (List ℤ)) : Bool :=
  match partitions with
  | [] => true
  | r :: rs => rs.all (fun s => s.length == r.length)

/-- The elementwise multiply of the gathered (batch, P, maxLen, features)
tensor with nodeWeights reshaped to (1, P, maxLen, 1) broadcasts exactly
when the two (P, maxLen) shapes agree. -/
def sameShape (partitions : List (List ℤ)) (w : List (List ℚ)) : Bool :=
  (partitions.length == w.length) &&
    (List.zip partitions w).all (fun p => p.1.length == p.2.length)

/-- tf.math.reduce_max along an axis holding the given list of values.
The empty case never arises in the claims (every gathered row is nonempty);
tf would produce negative infinity there. -/
def maxList : List ℚ → ℚ
  | [] => 0
  | x :: xs => xs.foldl max x

/-- Row (b, _, f) of the product-then-reduce_sum in sumPartitionPooling
(algorithm.py lines 57-63): gather tensor rows by the index row, multiply
slotwise by the weight row, and sum along the maxLen axis. -/
def weightedRowSum (tensor : Tensor3) (b f : ℕ) (row : List ℤ) (wrow : List ℚ) : ℚ :=
  (List.zipWith (fun idx w => tensor.data b idx.toNat f * w) row wrow).sum

/-- maxPartitionPooling (algorithm.py lines 4-29): gather along axis 1 by
the partition table, then reduce_max over axis 2. -/
def maxPartitionPooling (tensor : Tensor3) (partitions : List (List ℤ)) :
    Option Tensor3 :=
  if isRect partitions && gatherOK tensor.dim1 partitions then
    some { dim0 := tensor.dim0, dim1 := partitions.length, dim2 := tensor.dim2,
           data := fun b p f =>
             maxList ((partitions.getD p []).map (fun idx => tensor.data b idx.toNat f)) }
  else none

/-- sumPartitionPooling (algorithm.py lines 32-63): gather along axis 1,
multiply elementwise by nodeWeights reshaped to (1, P, maxLen, 1), then
reduce_sum over axis 2. -/
def sumPartitionPooling (tensor : Tensor3) (nodeWeights : List (List ℚ))
    (partitions : List (List ℤ)) : Option Tensor3 :=
  if isRect partitions && gatherOK tensor.dim1 partitions &&
      sameShape partitions nodeWeights then
    some { dim0 := tensor.dim0, dim1 := partitions.length, dim2 := tensor.dim2,
           data := fun b p f =>
             weightedRowSum tensor b f (partitions.getD p []) (nodeWeights.getD p []) }
  else none

/-- averagePartitionPooling (algorithm.py lines 66-99): the weighted sum as
above, then divide elementwise by partitionSizes reshaped to (1, P, 1). -/
def averagePartitionPooling (tensor : Tensor3) (nodeWeights : List (List ℚ))
    (sizes : List ℚ) (partitions : List (List ℤ)) : Option Tensor3 :=
  if isRect partitions && gatherOK tensor.dim1 partitions &&
      sameShape partitions nodeWeights && (sizes.length == partitions.length) then
    some { dim0 := tensor.dim0, dim1 := partitions.length, dim2 := tensor.dim2,
           data := fun b p f =>
             weightedRowSum tensor b f (partitions.getD p []) (nodeWeights.getD p []) /
               sizes.getD p 0 }
  else none

/-- A well-formed partition spec: at least one group and no empty group. -/
def ValidPart (part : List (List ℤ)) : Prop :=
  part ≠ [] ∧ ∀ e ∈ part, e ≠ []

instance : DecidablePred ValidPart := fun part => by
  unfold ValidPart; infer_instance

/-- All indices of the spec are valid offsets into a node axis of the given
length. -/
def InBounds (nodes : ℕ) (part : List (List ℤ)) : Prop :=
  ∀ e ∈ part, ∀ idx ∈ e, 0 ≤ idx ∧ idx < (nodes : ℤ)

instance (nodes : ℕ) : DecidablePred (InBounds nodes) := fun part => by
  unfold InBounds; infer_instance

lemma length_le_maxLenOf :
    ∀ {part : List (List ℤ)} {e : List ℤ}, e ∈ part → e.length ≤ maxLenOf part := by
  intro part
  induction part with
  | nil => intro e he; cases he
  | cons x xs ih =>
    intro e he
    simp only [maxLenOf, List.map_cons, List.foldr_cons]
    rcases List.mem_cons.mp he with rfl | he2
    · exact le_max_left _ _
    · exact le_trans (ih he2) (le_max_right _ _)

lemma maxLenOf_pos_iff (part : List (List ℤ)) :
    0 < maxLenOf part ↔ ∃ e ∈ part, e ≠ [] := by
  induction part with
  | nil => simp [maxLenOf]
  | cons x xs ih =>
    simp only [maxLenOf, List.map_cons, List.foldr_cons] at ih ⊢
    rw [lt_max_iff, ih]
    simp [List.length_pos]

lemma adjustPartitionLength_eq_some {part : List (List ℤ)} (hv : ValidPart part) :
    adjustPartitionLength part =
      some (part.map (fun e => (adjustRow (maxLenOf part) e).1),
            part.map (fun e => (adjustRow (maxLenOf part) e).2)) := by
  obtain ⟨h1, h2⟩ := hv
  have hne : part.isEmpty = false := by
    simpa [List.isEmpty_iff] using h1
  have hany : (part.any fun e => e.isEmpty && decide (0 < maxLenOf part)) = false := by
    simp only [List.any_eq_false, Bool.and_eq_true, not_and]
    intro e he hcontra
    exact absurd (List.isEmpty_iff.mp hcontra) (h2 e he)
  simp [adjustPartitionLength, hne, hany]

lemma adjustRow_fst_def (maxLen : ℕ) (e : List ℤ) :
    (adjustRow maxLen e).1 = e ++ List.replicate (maxLen - e.length) (e.getLastD 0) :=
  rfl

lemma adjustRow_snd_eq {maxLen : ℕ} {e : List ℤ} (he : e ≠ [])
    (hle : e.length ≤ maxLen) :
    (adjustRow maxLen e).2 =
      List.replicate (e.length - 1) (1 : ℚ) ++
        List.replicate (maxLen - e.length + 1)
          (((maxLen - e.length : ℕ) : ℚ) + 1)⁻¹ := by
  have h1 : 1 ≤ e.length := List.length_pos.mpr he
  have e1 : maxLen - (maxLen - e.length + 1) = e.length - 1 := by omega
  have e2 : maxLen - (e.length - 1) = maxLen - e.length + 1 := by omega
  simp only [adjustRow, e1, e2]

lemma adjustRow_fst_length {maxLen : ℕ} {e : List ℤ} (hle : e.length ≤ maxLen) :
    (adjustRow maxLen e).1.length = maxLen := by
  simp only [adjustRow, List.length_append, List.length_replicate]
  omega

lemma adjustRow_snd_length (maxLen : ℕ) (e : List ℤ) :
    (adjustRow maxLen e).2.length = maxLen := by
  simp only [adjustRow, List.length_append, List.length_replicate]
  omega

lemma getLastD_mem {e : List ℤ} (he : e ≠ []) : e.getLastD 0 ∈ e := by
  have : e.getLastD 0 = e.getLast he := by
    simp [List.getLastD_eq_getLast?, List.getLast?_eq_getLast _ he]
  rw [this]
  exact List.getLast_mem he

lemma mem_adjustRow_fst {maxLen : ℕ} {e : List ℤ} {x : ℤ} (he : e ≠ [])
    (hx : x ∈ (adjustRow maxLen e).1) : x ∈ e := by
  simp only [adjustRow_fst_def, List.mem_append] at hx
  rcases hx with hx | hx
  · exact hx
  · rw [List.eq_of_mem_replicate hx]
    exact getLastD_mem he

lemma getD_map_of_lt {α β : Type} (g : α → β) (l : List α) (p : ℕ)
    (hp : p < l.length) (d : α) (dfl : β) :
    (l.map g).getD p dfl = g (l.getD p d) := by
  simp [List.getD_eq_getElem?_getD, List.getElem?_map, List.getElem?_eq_getElem hp]

lemma getD_mem_of_lt {α : Type} (l : List α) (p : ℕ) (hp : p < l.length) (d : α) :
    l.getD p d ∈ l := by
  rw [List.getD_eq_getElem?_getD, List.getElem?_eq_getElem hp]
  exact List.getElem_mem hp

lemma replicate_inv_sum (n : ℕ) :
    (List.replicate (n + 1) (((n : ℚ) + 1)⁻¹)).sum = 1 := by
  have hne : (n : ℚ) + 1 ≠ 0 := by positivity
  rw [List.sum_replicate, nsmul_eq_mul]
  push_cast
  field_simp

lemma adjustRow_snd_sum {maxLen : ℕ} {e : List ℤ} (he : e ≠ [])
    (hle : e.length ≤ maxLen) :
    (adjustRow maxLen e).2.sum = (e.length : ℚ) := by
  have h1 : 1 ≤ e.length := List.length_pos.mpr he
  rw [adjustRow_snd_eq he hle, List.sum_append, List.sum_replicate,
    replicate_inv_sum, nsmul_eq_mul, mul_one]
  rw [Nat.cast_sub h1]
  push_cast
  ring

/-- The index table produced on the success path of adjustPartitionLength. -/
def indexTableOf (part : List (List ℤ)) : List (List ℤ) :=
  part.map (fun e => (adjustRow (maxLenOf part) e).1)

/-- The weight table produced on the success path of adjustPartitionLength. -/
def weightTableOf (part : List (List ℤ)) : List (List ℚ) :=
  part.map (fun e => (adjustRow (maxLenOf part) e).2)

lemma adjustPartitionLength_eq_some_tables {part : List (List ℤ)}
    (hv : ValidPart part) :
    adjustPartitionLength part = some (indexTableOf part, weightTableOf part) :=
  adjustPartitionLength_eq_some hv

lemma indexTableOf_length (part : List (List ℤ)) :
    (indexTableOf part).length = part.length := by
  simp [indexTableOf]

lemma weightTableOf_length (part : List (List ℤ)) :
    (weightTableOf part).length = part.length := by
  simp [weightTableOf]

lemma getD_indexTableOf {part : List (List ℤ)} {p : ℕ} (hp : p < part.length) :
    (indexTableOf part).getD p [] = (adjustRow (maxLenOf part) (part.getD p [])).1 :=
  getD_map_of_lt _ part p hp [] []

lemma getD_weightTableOf {part : List (List ℤ)} {p : ℕ} (hp : p < part.length) :
    (weightTableOf part).getD p [] = (adjustRow (maxLenOf part) (part.getD p [])).2 :=
  getD_map_of_lt _ part p hp [] []

lemma isRect_of_length (t : List (List ℤ)) (m : ℕ) (h : ∀ r ∈ t, r.length = m) :
    isRect t = true := by
  cases t with
  | nil => rfl
  | cons r rs =>
    simp only [isRect, List.all_eq_true, beq_iff_eq]
    intro s hs
    rw [h s (List.mem_cons_of_mem _ hs), h r (List.mem_cons_self _ _)]

lemma gatherOK_iff (nodes : ℕ) (t : List (List ℤ)) :
    gatherOK nodes t = true ↔
      ∀ row ∈ t, ∀ idx ∈ row, 0 ≤ idx ∧ idx < (nodes : ℤ) := by
  simp [gatherOK, List.all_eq_true, decide_eq_true_eq]

lemma sameShape_of_forall (t : List (List ℤ)) (w : List (List ℚ))
    (hlen : t.length = w.length)
    (h : ∀ pr ∈ List.zip t w, pr.1.length = pr.2.length) :
    sameShape t w = true := by
  simp only [sameShape, Bool.and_eq_true, beq_iff_eq, List.all_eq_true]
  exact ⟨hlen, fun pr hpr => h pr hpr⟩

lemma isRect_indexTableOf (part : List (List ℤ)) :
    isRect (indexTableOf part) = true := by
  refine isRect_of_length _ (maxLenOf part) ?_
  intro r hr
  obtain ⟨e, he, rfl⟩ := List.mem_map.mp hr
  exact adjustRow_fst_length (length_le_maxLenOf he)

lemma gatherOK_indexTableOf {nodes : ℕ} {part : List (List ℤ)}
    (hv : ValidPart part) (hb : InBounds nodes part) :
    gatherOK nodes (indexTableOf part) = true := by
  rw [gatherOK_iff]
  intro row hrow idx hidx
  obtain ⟨e, he, rfl⟩ := List.mem_map.mp hrow
  exact hb e he idx (mem_adjustRow_fst (hv.2 e he) hidx)

lemma sameShape_tablesOf (part : List (List ℤ)) :
    sameShape (indexTableOf part) (weightTableOf part) = true := by
  refine sameShape_of_forall _ _ (by rw [indexTableOf_length, weightTableOf_length]) ?_
  intro pr hpr
  obtain ⟨h1, h2⟩ := List.of_mem_zip hpr
  obtain ⟨e, he, hei⟩ := List.mem_map.mp h1
  obtain ⟨g, hg, hgw⟩ := List.mem_map.mp h2
  rw [← hei, ← hgw, adjustRow_fst_length (length_le_maxLenOf he),
    adjustRow_snd_length]

lemma zipWith_replicate_right {α β γ : Type} (f : α → β → γ) (c : β) :
    ∀ xs : List α,
      List.zipWith f xs (List.replicate xs.length c) = xs.map (fun x => f x c) := by
  intro xs
  induction xs with
  | nil => rfl
  | cons x xs ih => simp [List.replicate_succ, ih]

lemma zipWith_replicate_replicate {α β γ : Type} (f : α → β → γ) (a : α) (b : β)
    (n : ℕ) :
    List.zipWith f (List.replicate n a) (List.replicate n b) =
      List.replicate n (f a b) := by
  induction n with
  | zero => rfl
  | succ n ih => simp [List.replicate_succ, ih]

lemma dropLast_append_getLastD {e : List ℤ} (he : e ≠ []) :
    e.dropLast ++ [e.getLastD 0] = e := by
  have hgl : e.getLastD 0 = e.getLast he := by
    simp [List.getLastD_eq_getLast?, List.getLast?_eq_getLast _ he]
  rw [hgl]
  exact List.dropLast_append_getLast he

/-- Core computation behind the sum-invariance claim: the slotwise weighted
sum over a padded row produced by adjustRow equals the unweighted sum of
the feature values over the original (unpadded) group. -/
lemma weightedRowSum_adjustRow (tensor : Tensor3) (b f : ℕ) {maxLen : ℕ}
    {e : List ℤ} (he : e ≠ []) (hle : e.length ≤ maxLen) :
    weightedRowSum tensor b f (adjustRow maxLen e).1 (adjustRow maxLen e).2 =
      (e.map (fun idx => tensor.data b idx.toNat f)).sum := by
  have h1 : 1 ≤ e.length := List.length_pos.mpr he
  have hfst : (adjustRow maxLen e).1 =
      e.dropLast ++ List.replicate (maxLen - e.length + 1) (e.getLastD 0) := by
    rw [adjustRow_fst_def, List.replicate_succ, ← List.singleton_append,
      ← List.append_assoc, dropLast_append_getLastD he]
  have hdl : e.dropLast.length = e.length - 1 := List.length_dropLast e
  rw [weightedRowSum, hfst, adjustRow_snd_eq he hle,
    List.zipWith_append _ _ _ _ _ (by rw [hdl, List.length_replicate]),
    List.sum_append]
  have hA : List.zipWith (fun idx w => tensor.data b idx.toNat f * w) e.dropLast
      (List.replicate (e.length - 1) (1 : ℚ)) =
      e.dropLast.map (fun idx => tensor.data b idx.toNat f) := by
    rw [← hdl, zipWith_replicate_right]
    simp [mul_one]
  have hB : (List.zipWith (fun idx w => tensor.data b idx.toNat f * w)
      (List.replicate (maxLen - e.length + 1) (e.getLastD 0))
      (List.replicate (maxLen - e.length + 1)
        (((maxLen - e.length : ℕ) : ℚ) + 1)⁻¹)).sum =
      tensor.data b (e.getLastD 0).toNat f := by
    have hne : ((maxLen - e.length : ℕ) : ℚ) + 1 ≠ 0 := by positivity
    rw [zipWith_replicate_replicate, List.sum_replicate, nsmul_eq_mul,
      Nat.cast_add, Nat.cast_one, mul_comm, mul_assoc, inv_mul_cancel₀ hne,
      mul_one]
  rw [hA, hB]
  conv_rhs => rw [← dropLast_append_getLastD he]
  rw [List.map_append, List.sum_append]
  simp

/-- Claim C1: for every valid partition spec and every in-bounds feature
tensor, weighted-sum pooling with the normalized tables equals, exactly,
the unweighted sum of the features over each original (unpadded) group,
for every batch element and feature. -/
theorem sumPooling_padding_invariant (tensor : Tensor3) (part : List (List ℤ))
    (hv : ValidPart part) (hb : InBounds tensor.dim1 part) :
    ∃ idxT wT, adjustPartitionLength part = some (idxT, wT) ∧
      ∃ out, sumPartitionPooling tensor wT idxT = some out ∧
        ∀ b f p, p < part.length →
          out.data b p f =
            ((part.getD p []).map (fun idx => tensor.data b idx.toNat f)).sum := by
  refine ⟨_, _, adjustPartitionLength_eq_some_tables hv, ?_⟩
  have hcond : (isRect (indexTableOf part) &&
      gatherOK tensor.dim1 (indexTableOf part) &&
      sameShape (indexTableOf part) (weightTableOf part)) = true := by
    rw [isRect_indexTableOf part, gatherOK_indexTableOf hv hb,
      sameShape_tablesOf part]
    rfl
  refine ⟨_, by rw [sumPartitionPooling, if_pos hcond], ?_⟩
  intro b f p hp
  show weightedRowSum tensor b f ((indexTableOf part).getD p [])
      ((weightTableOf part).getD p []) = _
  have hmem : part.getD p [] ∈ part := getD_mem_of_lt part p hp []
  rw [getD_indexTableOf hp, getD_weightTableOf hp,
    weightedRowSum_adjustRow tensor b f (hv.2 _ hmem) (length_le_maxLenOf hmem)]

/-- Claim C3: for every valid partition spec and every in-bounds feature
tensor, weighted-average pooling with the normalized tables equals, exactly,
the arithmetic mean of the features over each original (unpadded) group;
the divisor is the original group length, which is nonzero. -/
theorem averagePooling_eq_mean (tensor : Tensor3) (part : List (List ℤ))
    (hv : ValidPart part) (hb : InBounds tensor.dim1 part) :
    ∃ idxT wT, adjustPartitionLength part = some (idxT, wT) ∧
      ∃ out, averagePartitionPooling tensor wT (partitionSizes wT) idxT = some out ∧
        ∀ b f p, p < part.length →
          ((part.getD p []).length : ℚ) ≠ 0 ∧
          out.data b p f =
            ((part.getD p []).map (fun idx => tensor.data b idx.toNat f)).sum /
              ((part.getD p []).length : ℚ) := by
  refine ⟨_, _, adjustPartitionLength_eq_some_tables hv, ?_⟩
  have hsz : (partitionSizes (weightTableOf part)).length = part.length := by
    simp [partitionSizes, weightTableOf_length]
  have hcond : (isRect (indexTableOf part) &&
      gatherOK tensor.dim1 (indexTableOf part) &&
      sameShape (indexTableOf part) (weightTableOf part) &&
      ((partitionSizes (weightTableOf part)).length == (indexTableOf part).length))
      = true := by
    rw [isRect_indexTableOf part, gatherOK_indexTableOf hv hb,
      sameShape_tablesOf part]
    simp [hsz, indexTableOf_length]
  refine ⟨_, by rw [averagePartitionPooling, if_pos hcond], ?_⟩
  intro b f p hp
  have hmem : part.getD p [] ∈ part := getD_mem_of_lt part p hp []
  have hene : part.getD p [] ≠ [] := hv.2 _ hmem
  have hlenne : ((part.getD p []).length : ℚ) ≠ 0 := by
    have := List.length_pos.mpr hene
    positivity
  refine ⟨hlenne, ?_⟩
  show weightedRowSum tensor b f ((indexTableOf part).getD p [])
      ((weightTableOf part).getD p []) /
      (partitionSizes (weightTableOf part)).getD p 0 = _
  have hszp : (partitionSizes (weightTableOf part)).getD p 0 =
      ((weightTableOf part).getD p []).sum := by
    rw [partitionSizes]
    exact getD_map_of_lt _ _ p (by rw [weightTableOf_length]; exact hp) [] 0
  rw [hszp, getD_indexTableOf hp, getD_weightTableOf hp,
    weightedRowSum_adjustRow tensor b f hene (length_le_maxLenOf hmem),
    adjustRow_snd_sum hene (length_le_maxLenOf hmem)]

/-- Claim C5: in every weightTable row the last (padCount + 1) slots (the
original last real slot plus all pad slots) carry the reduced weight
1/(padCount+1) and the first len-1 slots carry weight 1; when padCount = 0
the whole row is ones. -/
theorem weightTable_row_structure (part : List (List ℤ)) (hv : ValidPart part) :
    ∃ idxT wT, adjustPartitionLength part = some (idxT, wT) ∧
      ∀ p, p < part.length →
        wT.getD p [] =
          List.replicate ((part.getD p []).length - 1) (1 : ℚ) ++
            List.replicate (maxLenOf part - (part.getD p []).length + 1)
              (((maxLenOf part - (part.getD p []).length : ℕ) : ℚ) + 1)⁻¹ ∧
        (maxLenOf part - (part.getD p []).length = 0 →
          wT.getD p [] = List.replicate (maxLenOf part) (1 : ℚ)) := by
  refine ⟨_, _, adjustPartitionLength_eq_some hv, ?_⟩
  intro p hp
  have hmem : part.getD p [] ∈ part := getD_mem_of_lt part p hp []
  have hene : part.getD p [] ≠ [] := hv.2 _ hmem
  have hle : (part.getD p []).length ≤ maxLenOf part := length_le_maxLenOf hmem
  have hrow : (part.map (fun e => (adjustRow (maxLenOf part) e).2)).getD p [] =
      (adjustRow (maxLenOf part) (part.getD p [])).2 :=
    getD_map_of_lt _ part p hp [] []
  rw [hrow, adjustRow_snd_eq hene hle]
  refine ⟨rfl, ?_⟩
  intro hpad
  have hlen : (part.getD p []).length = maxLenOf part := by omega
  have h1 : 1 ≤ (part.getD p []).length := List.length_pos.mpr hene
  rw [hpad]
  have hv1 : (((0 : ℕ) : ℚ) + 1)⁻¹ = 1 := by norm_num
  rw [hv1, show (0 : ℕ) + 1 = 1 from rfl, List.replicate_one,
    ← List.replicate_succ']
  congr 1
  omega

/-- Claim C6: every indexTable row is the original group followed by
maxLen - len repetitions of the group's own last index, and every entry of
the row is a member of the original group. -/
theorem indexTable_row_structure (part : List (List ℤ)) (hv : ValidPart part) :
    ∃ idxT wT, adjustPartitionLength part = some (idxT, wT) ∧
      ∀ p, p < part.length →
        idxT.getD p [] =
          part.getD p [] ++
            List.replicate (maxLenOf part - (part.getD p []).length)
              ((part.getD p []).getLastD 0) ∧
        ∀ x ∈ idxT.getD p [], x ∈ part.getD p [] := by
  refine ⟨_, _, adjustPartitionLength_eq_some hv, ?_⟩
  intro p hp
  have hmem : part.getD p [] ∈ part := getD_mem_of_lt part p hp []
  have hene : part.getD p [] ≠ [] := hv.2 _ hmem
  have hrow : (part.map (fun e => (adjustRow (maxLenOf part) e).1)).getD p [] =
      (adjustRow (maxLenOf part) (part.getD p [])).1 :=
    getD_map_of_lt _ part p hp [] []
  rw [hrow]
  exact ⟨adjustRow_fst_def _ _, fun x hx => mem_adjustRow_fst hene hx⟩

/-- Claim C2: every weightTable row sums exactly to the original pre-padding
length of its group, and partitionSizes is exactly that row-wise sum, i.e.
the list of original group lengths. -/
theorem weightTable_row_sum_invariant (part : List (List ℤ)) (hv : ValidPart part) :
    ∃ idxT wT, adjustPartitionLength part = some (idxT, wT) ∧
      (∀ p, p < part.length →
        (wT.getD p []).sum = ((part.getD p []).length : ℚ)) ∧
      partitionSizes wT = part.map (fun e => (e.length : ℚ)) := by
  refine ⟨_, _, adjustPartitionLength_eq_some hv, ?_, ?_⟩
  · intro p hp
    have hmem : part.getD p [] ∈ part := getD_mem_of_lt part p hp []
    have hene : part.getD p [] ≠ [] := hv.2 _ hmem
    have hle : (part.getD p []).length ≤ maxLenOf part := length_le_maxLenOf hmem
    have hrow : (part.map (fun e => (adjustRow (maxLenOf part) e).2)).getD p [] =
        (adjustRow (maxLenOf part) (part.getD p [])).2 :=
      getD_map_of_lt _ part p hp [] []
    rw [hrow, adjustRow_snd_sum hene hle]
  · rw [partitionSizes, List.map_map]
    refine List.map_congr_left ?_
    intro e he
    exact adjustRow_snd_sum (hv.2 e he) (length_le_maxLenOf he)

lemma le_foldl_max :
    ∀ (xs : List ℚ) (x a : ℚ), a ≤ x ∨ a ∈ xs → a ≤ xs.foldl max x := by
  intro xs
  induction xs with
  | nil =>
    intro x a h
    rcases h with h | h
    · exact h
    · cases h
  | cons z zs ih =>
    intro x a h
    rw [List.foldl_cons]
    rcases h with h | h
    · exact ih _ _ (Or.inl (h.trans (le_max_left x z)))
    · rcases List.mem_cons.mp h with rfl | h2
      · exact ih _ _ (Or.inl (le_max_right x a))
      · exact ih _ _ (Or.inr h2)

lemma le_maxList {l : List ℚ} {a : ℚ} (h : a ∈ l) : a ≤ maxList l := by
  cases l with
  | nil => cases h
  | cons x xs =>
    show a ≤ xs.foldl max x
    rcases List.mem_cons.mp h with rfl | h2
    · exact le_foldl_max xs a a (Or.inl le_rfl)
    · exact le_foldl_max xs x a (Or.inr h2)

lemma maxList_concat (xs : List ℚ) (hxs : xs ≠ []) (y : ℚ) :
    maxList (xs ++ [y]) = max (maxList xs) y := by
  cases xs with
  | nil => exact absurd rfl hxs
  | cons x zs =>
    show (zs ++ [y]).foldl max x = max (zs.foldl max x) y
    rw [List.foldl_append]
    rfl

/-- Appending copies of an element already present does not change the
reduce_max result. -/
lemma maxList_append_replicate {l : List ℚ} {y : ℚ} (hy : y ∈ l) (d : ℕ) :
    maxList (l ++ List.replicate d y) = maxList l := by
  induction d with
  | zero => simp
  | succ n ih =>
    have hlne : l ≠ [] := List.ne_nil_of_mem hy
    have hne2 : l ++ List.replicate n y ≠ [] := fun hcon =>
      hlne (List.append_eq_nil.mp hcon).1
    rw [List.replicate_succ', ← List.append_assoc, maxList_concat _ hne2 y, ih,
      max_eq_left (le_maxList hy)]

/-- Claim C4: padding a group with repetitions of its own last member does
not change max pooling: the pooled output for the padded singleton table
coincides with the one for the unpadded group, as entire tensors. -/
theorem maxPooling_duplicate_pad_invariant (tensor : Tensor3) (e : List ℤ)
    (d : ℕ) (he : e ≠ [])
    (hb : ∀ idx ∈ e, 0 ≤ idx ∧ idx < (tensor.dim1 : ℤ)) :
    maxPartitionPooling tensor [e ++ List.replicate d (e.getLastD 0)] =
      maxPartitionPooling tensor [e] := by
  have hbpad : ∀ idx ∈ e ++ List.replicate d (e.getLastD 0),
      0 ≤ idx ∧ idx < (tensor.dim1 : ℤ) := by
    intro idx hidx
    rcases List.mem_append.mp hidx with h | h
    · exact hb idx h
    · rw [List.eq_of_mem_replicate h]
      exact hb _ (getLastD_mem he)
  have hg1 : gatherOK tensor.dim1 [e ++ List.replicate d (e.getLastD 0)] = true := by
    rw [gatherOK_iff]
    intro row hrow idx hidx
    rw [List.mem_singleton.mp hrow] at hidx
    exact hbpad idx hidx
  have hg2 : gatherOK tensor.dim1 [e] = true := by
    rw [gatherOK_iff]
    intro row hrow idx hidx
    rw [List.mem_singleton.mp hrow] at hidx
    exact hb idx hidx
  have hr1 : isRect [e ++ List.replicate d (e.getLastD 0)] = true := rfl
  have hr2 : isRect [e] = true := rfl
  rw [maxPartitionPooling, maxPartitionPooling, if_pos (by rw [hr1, hg1]; rfl),
    if_pos (by rw [hr2, hg2]; rfl)]
  refine congrArg some (Tensor3.ext rfl rfl rfl ?_)
  funext b p f
  match p with
  | 0 =>
    simp only [List.getD_cons_zero, List.map_append, List.map_replicate]
    exact maxList_append_replicate
      (List.mem_map.mpr ⟨e.getLastD 0, getLastD_mem he, rfl⟩) d
  | Nat.succ q =>
    simp only [List.getD_cons_succ]

/-- Claim C7 (counterexample): a partition spec containing a negative index
is normalized without error; no validation of index sign or integrality is
performed by adjustPartitionLength. -/
theorem adjustPartitionLength_accepts_negative_index :
    adjustPartitionLength [[-1]] = some ([[-1]], [[1]]) := by
  simp [adjustPartitionLength, adjustRow, maxLenOf]

/-- Claim C7 (amended): normalization fails exactly when the partition spec
is empty, or contains an empty group alongside at least one non-empty
group (an all-empty spec degenerately succeeds with empty rows, and
negative or non-integer indices are not checked); whenever it fails no
tables are produced. -/
theorem adjustPartitionLength_none_iff (part : List (List ℤ)) :
    adjustPartitionLength part = none ↔
      part = [] ∨ ((∃ g ∈ part, g = []) ∧ ∃ g ∈ part, g ≠ []) := by
  have hany : (part.any fun e => e.isEmpty && decide (0 < maxLenOf part)) = true ↔
      ((∃ g ∈ part, g = []) ∧ ∃ g ∈ part, g ≠ []) := by
    rw [List.any_eq_true]
    constructor
    · rintro ⟨e, he, hcond⟩
      rw [Bool.and_eq_true, decide_eq_true_eq] at hcond
      exact ⟨⟨e, he, List.isEmpty_iff.mp hcond.1⟩,
        (maxLenOf_pos_iff part).mp hcond.2⟩
    · rintro ⟨⟨g, hg, hge⟩, hnon⟩
      refine ⟨g, hg, ?_⟩
      rw [Bool.and_eq_true, decide_eq_true_eq]
      exact ⟨by simp [hge], (maxLenOf_pos_iff part).mpr hnon⟩
  rw [adjustPartitionLength]
  cases h1 : part.isEmpty with
  | true =>
    rw [if_pos rfl]
    exact iff_of_true rfl (Or.inl (List.isEmpty_iff.mp h1))
  | false =>
    have hne : part ≠ [] := by
      intro hcon
      rw [hcon] at h1
      exact absurd h1 (by simp)
    rw [if_neg Bool.false_ne_true]
    cases h2 : (part.any fun e => e.isEmpty && decide (0 < maxLenOf part)) with
    | true =>
      rw [if_pos rfl]
      exact iff_of_true rfl (Or.inr (hany.mp h2))
    | false =>
      rw [if_neg Bool.false_ne_true]
      refine iff_of_false (by simp) ?_
      rintro (rfl | hcon)
      · exact hne rfl
      · exact absurd (hany.mpr hcon) (by rw [h2]; simp)

/-- Claim C8: whenever some referenced index is at least the node-axis
length, every pooling call fails (none; no silent wrap and no result read
from a different node), and whenever every referenced index lies inside
the node axis the gather bounds check passes (so the gather branch of a
rectangular table succeeds). -/
theorem pooling_index_bounds (tensor : Tensor3) (partitions : List (List ℤ))
    (nodeWeights : List (List ℚ)) (sizes : List ℚ) :
    ((∃ row ∈ partitions, ∃ idx ∈ row, (tensor.dim1 : ℤ) ≤ idx) →
      maxPartitionPooling tensor partitions = none ∧
      sumPartitionPooling tensor nodeWeights partitions = none ∧
      averagePartitionPooling tensor nodeWeights sizes partitions = none) ∧
    ((∀ row ∈ partitions, ∀ idx ∈ row, 0 ≤ idx ∧ idx < (tensor.dim1 : ℤ)) →
      gatherOK tensor.dim1 partitions = true ∧
      (isRect partitions = true →
        (maxPartitionPooling tensor partitions).isSome = true)) := by
  constructor
  · rintro ⟨row, hrow, idx, hidx, hge⟩
    have hg : gatherOK tensor.dim1 partitions = false := by
      rw [Bool.eq_false_iff]
      intro hall
      rw [gatherOK_iff] at hall
      exact absurd (hall row hrow idx hidx).2 (not_lt.mpr hge)
    refine ⟨?_, ?_, ?_⟩ <;>
      simp [maxPartitionPooling, sumPartitionPooling, averagePartitionPooling, hg]
  · intro hall
    have hg : gatherOK tensor.dim1 partitions = true := (gatherOK_iff _ _).mpr hall
    refine ⟨hg, fun hrect => ?_⟩
    simp [maxPartitionPooling, hg, hrect]

/-- Claim C9: whenever one of the three pooling operations succeeds on a
(batch, nodes, features) tensor with a P-row table, the output has shape
(batch, P, features). -/
theorem pooling_shape_contract (tensor : Tensor3) (partitions : List (List ℤ))
    (nodeWeights : List (List ℚ)) (sizes : List ℚ) :
    (∀ out, maxPartitionPooling tensor partitions = some out →
      out.dim0 = tensor.dim0 ∧ out.dim1 = partitions.length ∧
        out.dim2 = tensor.dim2) ∧
    (∀ out, sumPartitionPooling tensor nodeWeights partitions = some out →
      out.dim0 = tensor.dim0 ∧ out.dim1 = partitions.length ∧
        out.dim2 = tensor.dim2) ∧
    (∀ out, averagePartitionPooling tensor nodeWeights sizes partitions = some out →
      out.dim0 = tensor.dim0 ∧ out.dim1 = partitions.length ∧
        out.dim2 = tensor.dim2) := by
  refine ⟨fun out hout => ?_, fun out hout => ?_, fun out hout => ?_⟩
  · rw [maxPartitionPooling] at hout
    split_ifs at hout
    rw [← Option.some.inj hout]
    exact ⟨rfl, rfl, rfl⟩
  · rw [sumPartitionPooling] at hout
    split_ifs at hout
    rw [← Option.some.inj hout]
    exact ⟨rfl, rfl, rfl⟩
  · rw [averagePartitionPooling] at hout
    split_ifs at hout
    rw [← Option.some.inj hout]
    exact ⟨rfl, rfl, rfl⟩

lemma weightedRowSum_add (x y : Tensor3) (b f : ℕ) :
    ∀ (row : List ℤ) (wrow : List ℚ),
      weightedRowSum (x.add y) b f row wrow =
        weightedRowSum x b f row wrow + weightedRowSum y b f row wrow := by
  intro row
  induction row with
  | nil =>
    intro wrow
    simp [weightedRowSum]
  | cons i is ih =>
    intro wrow
    cases wrow with
    | nil => simp [weightedRowSum]
    | cons w ws =>
      have h := ih ws
      simp only [weightedRowSum, Tensor3.add] at h ⊢
      simp only [List.zipWith_cons_cons, List.sum_cons]
      rw [h]
      ring

lemma weightedRowSum_smul (x : Tensor3) (c : ℚ) (b f : ℕ) :
    ∀ (row : List ℤ) (wrow : List ℚ),
      weightedRowSum (Tensor3.smul c x) b f row wrow =
        c * weightedRowSum x b f row wrow := by
  intro row
  induction row with
  | nil =>
    intro wrow
    simp [weightedRowSum]
  | cons i is ih =>
    intro wrow
    cases wrow with
    | nil => simp [weightedRowSum]
    | cons w ws =>
      have h := ih ws
      simp only [weightedRowSum, Tensor3.smul] at h ⊢
      simp only [List.zipWith_cons_cons, List.sum_cons]
      rw [h]
      ring

/-- Claim C10: weighted-sum pooling is linear in the feature tensor, for
any fixed weight table and index table on which it succeeds. -/
theorem sumPooling_linear (x y : Tensor3) (c : ℚ) (nodeWeights : List (List ℚ))
    (partitions : List (List ℤ))
    (hsh : x.dim0 = y.dim0 ∧ x.dim1 = y.dim1 ∧ x.dim2 = y.dim2)
    (ox oy : Tensor3)
    (hx : sumPartitionPooling x nodeWeights partitions = some ox)
    (hy : sumPartitionPooling y nodeWeights partitions = some oy) :
    sumPartitionPooling (x.add y) nodeWeights partitions = some (ox.add oy) ∧
    sumPartitionPooling (Tensor3.smul c x) nodeWeights partitions =
      some (Tensor3.smul c ox) := by
  rw [sumPartitionPooling] at hx hy
  by_cases hc : (isRect partitions && gatherOK x.dim1 partitions &&
      sameShape partitions nodeWeights) = true
  case neg =>
    rw [if_neg hc] at hx
    exact absurd hx (by simp)
  case pos =>
    have hcy : (isRect partitions && gatherOK y.dim1 partitions &&
        sameShape partitions nodeWeights) = true := by
      rw [← hsh.2.1]
      exact hc
    rw [if_pos hc] at hx
    rw [if_pos hcy] at hy
    have hox := Option.some.inj hx
    have hoy := Option.some.inj hy
    subst hox
    subst hoy
    constructor
    · have hc2 : (isRect partitions && gatherOK (x.add y).dim1 partitions &&
          sameShape partitions nodeWeights) = true := hc
      rw [sumPartitionPooling, if_pos hc2]
      refine congrArg some (Tensor3.ext rfl rfl rfl ?_)
      funext b p f
      exact weightedRowSum_add x y b f _ _
    · have hc3 : (isRect partitions && gatherOK (Tensor3.smul c x).dim1 partitions &&
          sameShape partitions nodeWeights) = true := hc
      rw [sumPartitionPooling, if_pos hc3]
      refine congrArg some (Tensor3.ext rfl rfl rfl ?_)
      funext b p f
      exact weightedRowSum_smul x c b f _ _

/-- Concrete feature tensor from the spec's worked scenario:
batch 1, nodes 3, features 1, node values 1, 3, 5. -/
def demoT : Tensor3 :=
  ⟨1, 3, 1, fun _ n _ => if n = 0 then 1 else if n = 1 then 3 else 5⟩

/-- A second concrete feature tensor of the same shape. -/
def demoT2 : Tensor3 := ⟨1, 3, 1, fun _ n _ => (n : ℚ) + 1⟩

/-- Concrete partition spec from the spec's worked scenario. -/
def demoPart : List (List ℤ) := [[0, 1], [2]]

/-- A second concrete, ragged partition spec. -/
def demoPart2 : List (List ℤ) := [[0], [1, 2]]

/-- A concrete max-pooling output. -/
def demoMaxOut : Tensor3 := (maxPartitionPooling demoT [[0, 1]]).get (by rfl)

/-- A concrete sum-pooling output for demoT. -/
def demoSumX : Tensor3 :=
  (sumPartitionPooling demoT [[1, 1]] [[0, 1]]).get (by rfl)

/-- A concrete sum-pooling output for demoT2. -/
def demoSumY : Tensor3 :=
  (sumPartitionPooling demoT2 [[1, 1]] [[0, 1]]).get (by rfl)

/-- Witness instantiating the sum-invariance claim on the spec's worked
scenario. -/
theorem sumPooling_padding_invariant_witness :
    ∃ idxT wT, adjustPartitionLength demoPart = some (idxT, wT) ∧
      ∃ out, sumPartitionPooling demoT wT idxT = some out ∧
        ∀ b f p, p < demoPart.length →
          out.data b p f =
            ((demoPart.getD p []).map (fun idx => demoT.data b idx.toNat f)).sum :=
  sumPooling_padding_invariant demoT demoPart (by decide) (by decide)

/-- Witness instantiating the row-sum invariant on a ragged spec. -/
theorem weightTable_row_sum_invariant_witness :
    ∃ idxT wT, adjustPartitionLength demoPart2 = some (idxT, wT) ∧
      (∀ p, p < demoPart2.length →
        (wT.getD p []).sum = ((demoPart2.getD p []).length : ℚ)) ∧
      partitionSizes wT = demoPart2.map (fun e => (e.length : ℚ)) :=
  weightTable_row_sum_invariant demoPart2 (by decide)

/-- Witness instantiating the average-pooling claim on the spec's worked
scenario. -/
theorem averagePooling_eq_mean_witness :
    ∃ idxT wT, adjustPartitionLength demoPart = some (idxT, wT) ∧
      ∃ out, averagePartitionPooling demoT wT (partitionSizes wT) idxT = some out ∧
        ∀ b f p, p < demoPart.length →
          ((demoPart.getD p []).length : ℚ) ≠ 0 ∧
          out.data b p f =
            ((demoPart.getD p []).map (fun idx => demoT.data b idx.toNat f)).sum /
              ((demoPart.getD p []).length : ℚ) :=
  averagePooling_eq_mean demoT demoPart (by decide) (by decide)

/-- Witness instantiating the max-pooling duplication claim at a concrete
group and pad amount. -/
theorem maxPooling_duplicate_pad_invariant_witness :
    maxPartitionPooling demoT
        [([0, 1] : List ℤ) ++ List.replicate 2 (([0, 1] : List ℤ).getLastD 0)] =
      maxPartitionPooling demoT [([0, 1] : List ℤ)] :=
  maxPooling_duplicate_pad_invariant demoT [0, 1] 2 (by decide) (by decide)

/-- Witness instantiating the weight-row structure claim on the spec's
worked scenario. -/
theorem weightTable_row_structure_witness :
    ∃ idxT wT, adjustPartitionLength demoPart = some (idxT, wT) ∧
      ∀ p, p < demoPart.length →
        wT.getD p [] =
          List.replicate ((demoPart.getD p []).length - 1) (1 : ℚ) ++
            List.replicate (maxLenOf demoPart - (demoPart.getD p []).length + 1)
              (((maxLenOf demoPart - (demoPart.getD p []).length : ℕ) : ℚ) + 1)⁻¹ ∧
        (maxLenOf demoPart - (demoPart.getD p []).length = 0 →
          wT.getD p [] = List.replicate (maxLenOf demoPart) (1 : ℚ)) :=
  weightTable_row_structure demoPart (by decide)

/-- Witness instantiating the index-row structure claim on a ragged spec. -/
theorem indexTable_row_structure_witness :
    ∃ idxT wT, adjustPartitionLength demoPart2 = some (idxT, wT) ∧
      ∀ p, p < demoPart2.length →
        idxT.getD p [] =
          demoPart2.getD p [] ++
            List.replicate (maxLenOf demoPart2 - (demoPart2.getD p []).length)
              ((demoPart2.getD p []).getLastD 0) ∧
        ∀ x ∈ idxT.getD p [], x ∈ demoPart2.getD p [] :=
  indexTable_row_structure demoPart2 (by decide)

/-- Witness instantiating the bounds claim: an out-of-range index makes max
pooling fail, and an in-bounds table passes the gather check. -/
theorem pooling_index_bounds_witness :
    maxPartitionPooling demoT [[5]] = none ∧ gatherOK demoT.dim1 [[0, 2]] = true :=
  ⟨((pooling_index_bounds demoT [[5]] [] []).1
      ⟨[5], by decide, 5, by decide, by decide⟩).1,
   ((pooling_index_bounds demoT [[0, 2]] [] []).2 (by decide)).1⟩

/-- Witness instantiating the shape contract on a successful max pooling. -/
theorem pooling_shape_contract_witness :
    demoMaxOut.dim0 = demoT.dim0 ∧
    demoMaxOut.dim1 = ([[0, 1]] : List (List ℤ)).length ∧
    demoMaxOut.dim2 = demoT.dim2 :=
  (pooling_shape_contract demoT [[0, 1]] [] []).1 demoMaxOut
    (Option.some_get _).symm

/-- Witness instantiating the linearity claim at concrete tensors, weights
and table. -/
theorem sumPooling_linear_witness :
    sumPartitionPooling (demoT.add demoT2) [[1, 1]] [[0, 1]] =
      some (demoSumX.add demoSumY) ∧
    sumPartitionPooling (Tensor3.smul 2 demoT) [[1, 1]] [[0, 1]] =
      some (Tensor3.smul 2 demoSumX) :=
  sumPooling_linear demoT demoT2 2 [[1, 1]] [[0, 1]] ⟨rfl, rfl, rfl⟩
    demoSumX demoSumY (Option.some_get _).symm (Option.some_get _).symm

end GraphPooling
